import Mathlib

/-!
Verification of the SNIPER listing-ingestion and price-tracking engine.

This file gives a shallow embedding, in Lean 4, of the parts of the
repository that the specification's claims are about:

* the SQLite-backed listing store of `src/db.py` (`Store.upsert_item`,
  `Store.get_price_history`), with the `ads` table modelled as a list of
  rows keyed by the primary key and the `price_history` table modelled as
  an append-only list of entries;
* the change-flag logic of `src/OLD/gui_zx_watcher_marktplaats_ebay.py`;
* the money parsers `parse_money_to_eur` of `src/Untitled-1.py` and of
  `src/OLD/gui_zx_watcher_marktplaats_ebay_v31.py` (with its helper
  `_to_float`), including a faithful executable rendering of the Python
  regular expressions they use;
* the sparkline trend summarizer of the v31 revision;
* the cancellation-aware scan-cycle worker of `src/Untitled-1.py`;
* the Marktplaats key derivation of `src/Untitled-1.py`;
* a small-step interleaving semantics for threads that share the store
  under the single `threading.Lock` of `src/db.py`.

Modelling conventions: Python floats are modelled as exact rationals
(`ℚ`); ISO-8601 UTC timestamps, which compare chronologically as strings,
are modelled as naturals; `None` becomes `Option.none`; Python text is
modelled as `List Char`.
-/

namespace Sniper

/-- Marketplace listing record, from the `Item` dataclass of `src/db.py`
(the GUI-only fields `thumb_url`, `thumb_bytes`, `trend` never reach the
store and are omitted). -/
structure Item where
  key : String
  source : String
  title : String
  link : String
  price_eur : Option ℚ
  ship_eur : Option ℚ
  total_eur : Option ℚ
  type : String
deriving DecidableEq, Repr

/-- One row of the `ads` table (schema in `Store._ensure_schema` of
`src/db.py`). -/
structure AdsRow where
  key : String
  source : String
  title : String
  link : String
  last_price : Option ℚ
  last_ship : Option ℚ
  last_total : Option ℚ
  type : String
  first_seen : ℕ
  last_seen : ℕ
deriving DecidableEq, Repr

/-- One row of the `price_history` table of `src/db.py`. -/
structure HistEntry where
  key : String
  seen_at : ℕ
  price : ℚ
deriving DecidableEq, Repr

/-- The persistent state owned by `Store` of `src/db.py`: the `ads` table
(one row per primary key, in insertion order) and the append-only
`price_history` table (in insertion order; `seen_at` values are
non-decreasing in a real run since each insert stamps the current UTC
time). -/
structure DBState where
  ads : List AdsRow
  hist : List HistEntry
deriving DecidableEq, Repr

/-- Row lookup by primary key: `SELECT ... FROM ads WHERE key=?`. -/
def lookupAds (ads : List AdsRow) (key : String) : Option AdsRow :=
  ads.find? (fun r => r.key = key)

/-- The row written by the `INSERT INTO ads ... ON CONFLICT(key) DO UPDATE`
statement of `Store.upsert_item` (`src/db.py` lines 100-126): on conflict
every column except `first_seen` is replaced by the excluded (new) values. -/
def updatedRow (r : AdsRow) (it : Item) (now : ℕ) : AdsRow :=
  { key := r.key, source := it.source, title := it.title, link := it.link
  , last_price := it.price_eur, last_ship := it.ship_eur
  , last_total := it.total_eur, type := it.type
  , first_seen := r.first_seen, last_seen := now }

/-- The fresh row inserted when the key is unseen: both `first_seen` and
`last_seen` are stamped with `now`. -/
def freshRow (it : Item) (now : ℕ) : AdsRow :=
  { key := it.key, source := it.source, title := it.title, link := it.link
  , last_price := it.price_eur, last_ship := it.ship_eur
  , last_total := it.total_eur, type := it.type
  , first_seen := now, last_seen := now }

/-- Effect of the upsert statement on the `ads` table: update in place when
the key is present, append otherwise. -/
def upsertAds (ads : List AdsRow) (it : Item) (now : ℕ) : List AdsRow :=
  if (ads.find? (fun r => r.key = it.key)).isSome then
    ads.map (fun r => if r.key = it.key then updatedRow r it now else r)
  else
    ads ++ [freshRow it now]

/-- Python `it.total_eur if (it.total_eur is not None) else it.price_eur`
(`src/db.py` line 127). -/
def price_for_hist (it : Item) : Option ℚ :=
  match it.total_eur with
  | some t => some t
  | none => it.price_eur

/-- `Store.upsert_item` of `src/db.py` (lines 91-132): one upsert of the
`ads` row followed by an `INSERT INTO price_history` exactly when a price
figure is derivable (total if known, else the item price). -/
def upsert_item (db : DBState) (it : Item) (now : ℕ) : DBState :=
  { ads := upsertAds db.ads it now
  , hist :=
      match price_for_hist it with
      | some p => db.hist ++ [⟨it.key, now, p⟩]
      | none => db.hist }

/-- Insertion step of a descending sort on `seen_at`, used to model the SQL
`ORDER BY seen_at DESC` of `Store.get_price_history`. -/
def insertDesc (e : HistEntry) : List HistEntry → List HistEntry
  | [] => [e]
  | y :: ys => if y.seen_at ≤ e.seen_at then e :: y :: ys else y :: insertDesc e ys

/-- Descending sort on `seen_at` (a faithful model of the SQL ordering: on
rows with pairwise distinct timestamps every correct sort agrees). -/
def sortDesc : List HistEntry → List HistEntry
  | [] => []
  | x :: xs => insertDesc x (sortDesc xs)

/-- `Store.get_price_history` of `src/db.py` (lines 134-161):
`SELECT price FROM price_history WHERE key=? ORDER BY seen_at DESC LIMIT ?`
followed by the Python `rows.reverse()`. -/
def get_price_history (db : DBState) (key : String) (limit : ℕ) : List ℚ :=
  ((((sortDesc (db.hist.filter (fun e => e.key = key))).take limit).map
      (fun e => e.price)).reverse)

end Sniper

namespace Sniper

/-- C1 helper: the single entry appended for a record with a derivable
price. -/
def histDelta (it : Item) (now : ℕ) : List HistEntry :=
  match price_for_hist it with
  | some p => [⟨it.key, now, p⟩]
  | none => []

theorem upsert_item_hist_eq (db : DBState) (it : Item) (now : ℕ) :
    (upsert_item db it now).hist = db.hist ++ histDelta it now := by
  unfold upsert_item histDelta
  cases h : price_for_hist it <;> simp

/-- Claim C1: every upsert appends exactly one price-history entry when the
record carries a derivable price (the total if known, else the item price),
and appends nothing when both the total and the item price are unknown.
The history that was already stored is preserved unchanged. -/
theorem upsert_appends_one_entry_iff_derivable
    (db : DBState) (it : Item) (now : ℕ) :
    ((upsert_item db it now).hist.length =
        db.hist.length +
          (if it.total_eur = none ∧ it.price_eur = none then 0 else 1))
    ∧ ((upsert_item db it now).hist.take db.hist.length = db.hist)
    ∧ (∀ p : ℚ,
        (it.total_eur = some p ∨ (it.total_eur = none ∧ it.price_eur = some p)) →
        (upsert_item db it now).hist = db.hist ++ [⟨it.key, now, p⟩])
    ∧ ((it.total_eur = none ∧ it.price_eur = none) →
        (upsert_item db it now).hist = db.hist) := by
  refine ⟨?_, ?_, ?_, ?_⟩
  · rw [upsert_item_hist_eq]
    unfold histDelta price_for_hist
    cases ht : it.total_eur <;> cases hp : it.price_eur <;> simp
  · rw [upsert_item_hist_eq]
    simp [List.take_append]
  · intro p hp
    rw [upsert_item_hist_eq]
    unfold histDelta price_for_hist
    rcases hp with h | ⟨ht, hp⟩
    · rw [h]
    · rw [ht, hp]
  · intro ⟨ht, hp⟩
    rw [upsert_item_hist_eq]
    unfold histDelta price_for_hist
    rw [ht, hp]
    simp

/-- Witness for C1: a concrete record with a known total appends exactly
one entry carrying that total, and a priceless record appends nothing. -/
theorem upsert_appends_one_entry_iff_derivable_witness :
    (upsert_item ⟨[], []⟩
        ⟨"MP:m1", "Marktplaats", "t", "u", some 10, some 2, some 12, ""⟩
        5).hist = [] ++ [⟨"MP:m1", 5, 12⟩] ∧
    (upsert_item ⟨[], []⟩
        ⟨"MP:m2", "Marktplaats", "t", "u", none, none, none, ""⟩
        6).hist = [] := by
  refine ⟨?_, ?_⟩
  · exact (upsert_appends_one_entry_iff_derivable ⟨[], []⟩
      ⟨"MP:m1", "Marktplaats", "t", "u", some 10, some 2, some 12, ""⟩ 5).2.2.1
      12 (Or.inl rfl)
  · exact (upsert_appends_one_entry_iff_derivable ⟨[], []⟩
      ⟨"MP:m2", "Marktplaats", "t", "u", none, none, none, ""⟩ 6).2.2.2
      ⟨rfl, rfl⟩

theorem find?_append_none {l l' : List AdsRow} {k : String}
    (h : l.find? (fun r => r.key = k) = none) :
    (l ++ l').find? (fun r => r.key = k) = l'.find? (fun r => r.key = k) := by
  induction l with
  | nil => simp
  | cons r rs ih =>
    by_cases hk : r.key = k
    · simp [List.find?_cons, hk] at h
    · have hd : (decide (r.key = k)) = false := by simpa using hk
      simp only [List.find?_cons, hd] at h
      rw [List.cons_append]
      simp only [List.find?_cons, hd]
      exact ih h

theorem find?_map_updated (l : List AdsRow) (it : Item) (now : ℕ) :
    (l.map (fun r => if r.key = it.key then updatedRow r it now else r)).find?
        (fun r => r.key = it.key) =
      (l.find? (fun r => r.key = it.key)).map (fun r => updatedRow r it now) := by
  induction l with
  | nil => simp
  | cons r rs ih =>
    by_cases hk : r.key = it.key
    · have h1 : (decide ((updatedRow r it now).key = it.key)) = true := by
        simp [updatedRow, hk]
      have h2 : (decide (r.key = it.key)) = true := by simpa using hk
      simp only [List.map_cons, if_pos hk, List.find?_cons, h1, h2]
      rfl
    · have h2 : (decide (r.key = it.key)) = false := by simpa using hk
      have h1 : (decide ((if r.key = it.key then updatedRow r it now else r).key
          = it.key)) = false := by
        rw [if_neg hk]; exact h2
      simp only [List.map_cons, List.find?_cons, h1, h2]
      exact ih

/-- Claim C10: after an upsert the row stored under the record's key holds
the new record's `source`, `title`, `link`, prices, `type` and a `last_seen`
of `now`, while `first_seen` is the prior row's `first_seen` when the key
already existed and `now` exactly when this is the first insert. -/
theorem upsert_preserves_first_seen (db : DBState) (it : Item) (now : ℕ) :
    lookupAds (upsert_item db it now).ads it.key =
      some { key := it.key, source := it.source, title := it.title
           , link := it.link, last_price := it.price_eur
           , last_ship := it.ship_eur, last_total := it.total_eur
           , type := it.type
           , first_seen :=
               (match lookupAds db.ads it.key with
                | some r => r.first_seen
                | none => now)
           , last_seen := now } := by
  unfold upsert_item lookupAds upsertAds
  cases hfind : db.ads.find? (fun r => r.key = it.key) with
  | none =>
    simp only [hfind, Option.isSome_none, Bool.false_eq_true, if_false]
    rw [find?_append_none hfind]
    simp [freshRow]
  | some r₀ =>
    have hkey : r₀.key = it.key := by
      have := List.find?_some hfind
      simpa using this
    simp only [hfind, Option.isSome_some, if_true]
    rw [find?_map_updated, hfind]
    simp [updatedRow, hkey]

theorem insertDesc_of_lt {e : HistEntry} {l : List HistEntry}
    (h : ∀ y ∈ l, e.seen_at < y.seen_at) : insertDesc e l = l ++ [e] := by
  induction l with
  | nil => rfl
  | cons y ys ih =>
    have hy := h y (List.mem_cons_self y ys)
    rw [insertDesc, if_neg (by omega)]
    rw [ih (fun z hz => h z (List.mem_cons_of_mem y hz))]
    rfl

theorem sortDesc_of_ascending {l : List HistEntry}
    (h : l.Pairwise (fun a b => a.seen_at < b.seen_at)) :
    sortDesc l = l.reverse := by
  induction l with
  | nil => rfl
  | cons x xs ih =>
    rw [List.pairwise_cons] at h
    rw [sortDesc, ih h.2, insertDesc_of_lt, List.reverse_cons]
    intro y hy
    exact h.1 y (by simpa using hy)

/-- Claim C2: when the stored history rows for a key carry strictly
increasing timestamps (each insert stamps the then-current UTC time),
`get_price_history` returns the suffix of the chronologically ordered price
sequence of length `min count limit`: at most `limit` prices, exactly the
`limit` most recent ones when the history is longer, oldest first. -/
theorem get_price_history_most_recent (db : DBState) (key : String)
    (limit : ℕ)
    (h : (db.hist.filter (fun e => e.key = key)).Pairwise
        (fun a b => a.seen_at < b.seen_at)) :
    get_price_history db key limit =
      ((db.hist.filter (fun e => e.key = key)).map (fun e => e.price)).drop
        ((db.hist.filter (fun e => e.key = key)).length - limit)
    ∧ (get_price_history db key limit).length =
        min (db.hist.filter (fun e => e.key = key)).length limit := by
  set l := db.hist.filter (fun e => e.key = key) with hl
  have heq : get_price_history db key limit =
      (l.map (fun e => e.price)).drop (l.length - limit) := by
    unfold get_price_history
    rw [← hl, sortDesc_of_ascending h]
    rw [List.take_reverse, List.map_reverse, List.reverse_reverse,
      List.map_drop]
  refine ⟨heq, ?_⟩
  rw [heq, List.length_drop, List.length_map]
  omega

/-- Witness for C2: a store with three history points for a key and limit 2
returns exactly the two most recent prices, oldest first. -/
theorem get_price_history_most_recent_witness :
    get_price_history
        ⟨[], [⟨"K", 1, 10⟩, ⟨"K", 2, 20⟩, ⟨"K", 3, 30⟩, ⟨"X", 4, 99⟩]⟩
        "K" 2 = [20, 30] := by
  have h := get_price_history_most_recent
    ⟨[], [⟨"K", 1, 10⟩, ⟨"K", 2, 20⟩, ⟨"K", 3, 30⟩, ⟨"X", 4, 99⟩]⟩
    "K" 2 (by decide)
  rw [h.1]
  decide

/-- Change verdict attached to each observation. -/
inductive Verdict where
  | NEW
  | PRICE_DROP
  | UNCHANGED
deriving DecidableEq, Repr

/-- The change-flag logic of the scan worker in
`src/OLD/gui_zx_watcher_marktplaats_ebay.py` (lines 452-458):
`if is_new` flag NEW; `elif new_price is not None and old_price is not None
and new_price < old_price` flag DROP; otherwise no change flag. -/
def classify (isNew : Bool) (priorTotal newTotal : Option ℚ) : Verdict :=
  if isNew then .NEW
  else
    match newTotal, priorTotal with
    | some n, some o => if n < o then .PRICE_DROP else .UNCHANGED
    | _, _ => .UNCHANGED

/-- Claim C4: `classify` returns NEW whenever `isNew` holds regardless of
the price arguments, PRICE_DROP exactly when not new and both totals are
known with the new one strictly lower, and UNCHANGED in every other case
(in particular on unknown-to-known and known-to-unknown transitions). -/
theorem classify_cases (isNew : Bool) (priorTotal newTotal : Option ℚ) :
    (isNew = true → classify isNew priorTotal newTotal = .NEW)
    ∧ (classify isNew priorTotal newTotal = .PRICE_DROP ↔
        (isNew = false ∧ ∃ o n, priorTotal = some o ∧ newTotal = some n ∧ n < o))
    ∧ ((isNew = false ∧ ¬ (∃ o n, priorTotal = some o ∧ newTotal = some n ∧ n < o)) →
        classify isNew priorTotal newTotal = .UNCHANGED) := by
  refine ⟨?_, ?_, ?_⟩
  · intro h; simp [classify, h]
  · constructor
    · intro h
      cases isNew with
      | true => simp [classify] at h
      | false =>
        cases ho : priorTotal with
        | none => cases newTotal <;> simp [classify, ho] at h
        | some o =>
          cases hn : newTotal with
          | none => simp [classify, ho, hn] at h
          | some n =>
            refine ⟨rfl, o, n, rfl, rfl, ?_⟩
            by_contra hlt
            simp [classify, ho, hn, if_neg hlt] at h
    · rintro ⟨hnew, o, n, ho, hn, hlt⟩
      simp [classify, hnew, ho, hn, hlt]
  · rintro ⟨hnew, hno⟩
    cases ho : priorTotal with
    | none => cases hn : newTotal <;> simp [classify, hnew, ho, hn]
    | some o =>
      cases hn : newTotal with
      | none => simp [classify, hnew, ho, hn]
      | some n =>
        have : ¬ n < o := fun hlt => hno ⟨o, n, ho, hn, hlt⟩
        simp [classify, hnew, ho, hn, this]

/-- Witness for C4: the five examples of the specification: new always NEW,
a genuine drop is PRICE_DROP, and increase or either side unknown stay
UNCHANGED. -/
theorem classify_cases_witness :
    classify true none (some 100) = .NEW
    ∧ classify false (some 100) (some 80) = .PRICE_DROP
    ∧ classify false (some 80) (some 100) = .UNCHANGED
    ∧ classify false none (some 100) = .UNCHANGED
    ∧ classify false (some 100) none = .UNCHANGED := by
  refine ⟨(classify_cases true none (some 100)).1 rfl,
    (classify_cases false (some 100) (some 80)).2.1.mpr
      ⟨rfl, 100, 80, rfl, rfl, by norm_num⟩,
    (classify_cases false (some 80) (some 100)).2.2 ⟨rfl, ?_⟩,
    (classify_cases false none (some 100)).2.2 ⟨rfl, ?_⟩,
    (classify_cases false (some 100) none).2.2 ⟨rfl, ?_⟩⟩
  · rintro ⟨o, n, ho, hn, hlt⟩
    cases ho; cases hn; norm_num at hlt
  · rintro ⟨o, n, ho, hn, hlt⟩
    cases ho
  · rintro ⟨o, n, ho, hn, hlt⟩
    cases hn

/-- The glyph palette `BLOCKS` of
`src/OLD/gui_zx_watcher_marktplaats_ebay_v31.py` (line 124), low to high. -/
def BLOCKS : List Char := ['▁', '▂', '▃', '▄', '▅', '▆', '▇']

/-- Python `min` over a non-empty list (first element as seed, 0 for the
empty list which Python would reject). -/
def listMin : List ℚ → ℚ
  | [] => 0
  | x :: xs => xs.foldl min x

/-- Python `max` over a non-empty list. -/
def listMax : List ℚ → ℚ
  | [] => 0
  | x :: xs => xs.foldl max x

/-- `sparkline(values, width)` of
`src/OLD/gui_zx_watcher_marktplaats_ebay_v31.py` (lines 126-140), the
two-argument trend summarizer: fewer than 2 numeric points give the
dash sentinel; longer histories are downsampled to `width` evenly spaced
points; equal extremes give the lowest glyph repeated; otherwise each value
is bucketed linearly into the palette. Arithmetic is modelled exactly over
`ℚ`; the list argument is already numeric so the `isinstance` filter keeps
every element. -/
def sparkline (values : List ℚ) (width : ℕ) : List Char :=
  if values.length < 2 then ['—']
  else
    let vals :=
      if width < values.length then
        (List.range width).map (fun i => values.getD (i * values.length / width) 0)
      else values
    let lo := listMin vals
    let hi := listMax vals
    if hi = lo then List.replicate vals.length '▁'
    else vals.map (fun v => BLOCKS.getD (((v - lo) / (hi - lo) * 6).floor.toNat) ' ')

theorem foldl_min_le (xs : List ℚ) (a : ℚ) :
    xs.foldl min a ≤ a ∧ ∀ v ∈ xs, xs.foldl min a ≤ v := by
  induction xs generalizing a with
  | nil => simp
  | cons x xs ih =>
    refine ⟨le_trans ((ih (min a x)).1) (min_le_left a x), ?_⟩
    intro v hv
    rcases List.mem_cons.mp hv with h | h
    · rw [h]
      exact le_trans ((ih (min a x)).1) (min_le_right a x)
    · exact (ih (min a x)).2 v h

theorem le_foldl_max (xs : List ℚ) (a : ℚ) :
    a ≤ xs.foldl max a ∧ ∀ v ∈ xs, v ≤ xs.foldl max a := by
  induction xs generalizing a with
  | nil => simp
  | cons x xs ih =>
    refine ⟨le_trans (le_max_left a x) ((ih (max a x)).1), ?_⟩
    intro v hv
    rcases List.mem_cons.mp hv with h | h
    · rw [h]
      exact le_trans (le_max_right a x) ((ih (max a x)).1)
    · exact (ih (max a x)).2 v h

theorem listMin_le_mem {l : List ℚ} {v : ℚ} (h : v ∈ l) : listMin l ≤ v := by
  cases l with
  | nil => cases h
  | cons x xs =>
    rcases List.mem_cons.mp h with h | h
    · rw [h]; exact (foldl_min_le xs x).1
    · exact (foldl_min_le xs x).2 v h

theorem mem_le_listMax {l : List ℚ} {v : ℚ} (h : v ∈ l) : v ≤ listMax l := by
  cases l with
  | nil => cases h
  | cons x xs =>
    rcases List.mem_cons.mp h with h | h
    · rw [h]; exact (le_foldl_max xs x).1
    · exact (le_foldl_max xs x).2 v h

theorem getD_mem {α : Type} (l : List α) (i : ℕ) (d : α) (h : i < l.length) :
    l.getD i d ∈ l := by
  induction l generalizing i with
  | nil => simp at h
  | cons x xs ih =>
    cases i with
    | zero => simp [List.getD]
    | succ j =>
      have hstep : (x :: xs).getD (j + 1) d = xs.getD j d := rfl
      rw [hstep]
      exact List.mem_cons_of_mem x (ih j (by simpa using h))

theorem sparkline_vals_mem (values : List ℚ) (width : ℕ) (hw : 0 < width)
    (hlen : 2 ≤ values.length) :
    ∀ v ∈ (if width < values.length then
        (List.range width).map
          (fun i => values.getD (i * values.length / width) 0)
      else values), v ∈ values := by
  intro v hv
  by_cases hd : width < values.length
  · rw [if_pos hd] at hv
    obtain ⟨i, hi, hvi⟩ := List.mem_map.mp hv
    have hidx : i * values.length / width < values.length := by
      rw [Nat.div_lt_iff_lt_mul hw]
      have hi' : i < width := List.mem_range.mp hi
      calc i * values.length < width * values.length :=
            (Nat.mul_lt_mul_right (by omega : 0 < values.length)).mpr hi'
        _ = values.length * width := Nat.mul_comm _ _
    rw [← hvi]
    exact getD_mem values _ 0 hidx
  · rwa [if_neg hd] at hv

/-- Claim C7: for every history and positive width, the v31 summarizer
returns exactly `min (length, width)` glyphs drawn from the palette when the
history has at least 2 points, the dash sentinel for shorter histories, and
the lowest glyph repeated when all values are equal. -/
theorem sparkline_spec (values : List ℚ) (width : ℕ) (hw : 0 < width) :
    (values.length < 2 → sparkline values width = ['—'])
    ∧ (2 ≤ values.length →
        (sparkline values width).length = min values.length width
        ∧ ∀ c ∈ sparkline values width, c ∈ BLOCKS)
    ∧ (2 ≤ values.length → (∀ c : ℚ, (∀ v ∈ values, v = c) →
        sparkline values width =
          List.replicate (min values.length width) '▁')) := by
  refine ⟨?_, ?_, ?_⟩
  · intro h
    unfold sparkline
    rw [if_pos h]
  · intro hlen
    have hnotlt : ¬ values.length < 2 := by omega
    unfold sparkline
    rw [if_neg hnotlt]
    set vals := (if width < values.length then
        (List.range width).map
          (fun i => values.getD (i * values.length / width) 0)
      else values) with hvals
    have hvlen : vals.length = min values.length width := by
      rw [hvals]
      by_cases hd : width < values.length
      · rw [if_pos hd]
        simp [Nat.min_eq_right (le_of_lt hd)]
      · rw [if_neg hd]
        simp [Nat.min_eq_left (by omega : values.length ≤ width)]
    have hvne : vals ≠ [] := by
      intro hnil
      rw [hnil] at hvlen
      simp at hvlen
      omega
    by_cases heq : listMax vals = listMin vals
    · rw [if_pos heq]
      constructor
      · simp [hvlen]
      · intro c hc
        rw [List.eq_of_mem_replicate hc]
        simp [BLOCKS]
    · rw [if_neg heq]
      constructor
      · simp [hvlen]
      · intro c hc
        obtain ⟨v, hv, hvc⟩ := List.mem_map.mp hc
        have hlo : listMin vals ≤ v := listMin_le_mem hv
        have hhi : v ≤ listMax vals := mem_le_listMax hv
        have hlt : listMin vals < listMax vals := by
          rcases lt_or_eq_of_le (le_trans hlo hhi) with h | h
          · exact h
          · exact absurd h.symm heq
        have hpos : (0:ℚ) < listMax vals - listMin vals := by linarith
        have hq0 : (0:ℚ) ≤ (v - listMin vals) / (listMax vals - listMin vals) := by
          apply div_nonneg <;> linarith
        have hq1 : (v - listMin vals) / (listMax vals - listMin vals) ≤ 1 := by
          rw [div_le_one hpos]; linarith
        have hb : ((v - listMin vals) / (listMax vals - listMin vals) * 6).floor.toNat < 7 := by
          have h6 : (v - listMin vals) / (listMax vals - listMin vals) * 6 ≤ 6 := by
            nlinarith
          have : ((v - listMin vals) / (listMax vals - listMin vals) * 6).floor ≤ 6 := by
            have := Int.floor_le_floor h6
            simpa using this
          omega
        rw [← hvc]
        exact getD_mem BLOCKS _ ' ' (by simpa [BLOCKS] using hb)
  · intro hlen c hall
    have hnotlt : ¬ values.length < 2 := by omega
    unfold sparkline
    rw [if_neg hnotlt]
    set vals := (if width < values.length then
        (List.range width).map
          (fun i => values.getD (i * values.length / width) 0)
      else values) with hvals
    have hvlen : vals.length = min values.length width := by
      rw [hvals]
      by_cases hd : width < values.length
      · rw [if_pos hd]
        simp [Nat.min_eq_right (le_of_lt hd)]
      · rw [if_neg hd]
        simp [Nat.min_eq_left (by omega : values.length ≤ width)]
    have hmem : ∀ v ∈ vals, v = c := by
      intro v hv
      exact hall v (sparkline_vals_mem values width hw hlen v (hvals ▸ hv))
    have hvne : vals ≠ [] := by
      intro hnil
      rw [hnil] at hvlen
      simp at hvlen
      omega
    obtain ⟨x, xs, hx⟩ := List.exists_cons_of_ne_nil hvne
    have hminc : listMin vals = c := by
      have hxc : x = c := hmem x (by rw [hx]; exact List.mem_cons_self x xs)
      rw [hx, listMin]
      have : ∀ (ys : List ℚ) (a : ℚ), (∀ v ∈ ys, v = c) → a = c →
          ys.foldl min a = c := by
        intro ys
        induction ys with
        | nil => intro a _ ha; simpa using ha
        | cons y ys ih =>
          intro a hy ha
          have hyc : y = c := hy y (List.mem_cons_self y ys)
          rw [List.foldl_cons]
          exact ih (min a y)
            (fun v hv => hy v (List.mem_cons_of_mem y hv))
            (by rw [ha, hyc]; simp)
      exact this xs x (fun v hv => hmem v (by rw [hx]; exact List.mem_cons_of_mem x hv)) hxc
    have hmaxc : listMax vals = c := by
      have hxc : x = c := hmem x (by rw [hx]; exact List.mem_cons_self x xs)
      rw [hx, listMax]
      have : ∀ (ys : List ℚ) (a : ℚ), (∀ v ∈ ys, v = c) → a = c →
          ys.foldl max a = c := by
        intro ys
        induction ys with
        | nil => intro a _ ha; simpa using ha
        | cons y ys ih =>
          intro a hy ha
          have hyc : y = c := hy y (List.mem_cons_self y ys)
          rw [List.foldl_cons]
          exact ih (max a y)
            (fun v hv => hy v (List.mem_cons_of_mem y hv))
            (by rw [ha, hyc]; simp)
      exact this xs x (fun v hv => hmem v (by rw [hx]; exact List.mem_cons_of_mem x hv)) hxc
    rw [if_pos (by rw [hminc, hmaxc])]
    rw [hvlen]

/-- Witness for C7: width 2 on a 3-point history gives 2 palette glyphs, a
short history gives the sentinel, and a constant history gives the lowest
glyph repeated. -/
theorem sparkline_spec_witness :
    sparkline [5] 10 = ['—']
    ∧ (sparkline [1, 2, 3] 2).length = min 3 2
    ∧ sparkline [5, 5, 5] 10 = List.replicate (min 3 10) '▁' := by
  refine ⟨(sparkline_spec [5] 10 (by norm_num)).1 (by simp),
    ((sparkline_spec [1, 2, 3] 2 (by norm_num)).2.1 (by simp)).1,
    (sparkline_spec [5, 5, 5] 10 (by norm_num)).2.2 (by simp) 5 ?_⟩
  intro v hv
  simpa using hv

/-- The eBay search URL `SEARCH_EBAY` of `src/Untitled-1.py` (line 62). -/
def SEARCH_EBAY : String := "https://www.ebay.nl/sch/i.html?_nkw=zx+spectrum&_sacat=11189"

/-- Running state of one scan cycle of `worker_fetch` in `src/Untitled-1.py`:
the count of `stop_event.is_set()` calls made so far (the cancellation
signal is modelled as the boolean each successive call observes), the
store, the log of URLs fetched with `polite_get`, and the records emitted
as `UPSERT` messages. -/
structure CycleAcc where
  idx : ℕ
  db : DBState
  fetched : List String
  emitted : List Item
deriving DecidableEq

/-- The Marktplaats candidate loop of `worker_fetch` (`src/Untitled-1.py`
lines 572-591): before each candidate one `stop_event.is_set()` check
(`break` when set), then `parse_mp_ad` (one `polite_get` of the candidate
URL; the network transport and page extraction are the injected external
collaborator `fetch`), `db.upsert_item`, and the emitted `UPSERT` record.
The trend decoration read back from the store does not change the store or
the record count and is not tracked. -/
def runMP (fetch : String → Item) (nows : ℕ → ℕ) (checks : ℕ → Bool) :
    List String → CycleAcc → CycleAcc
  | [], acc => acc
  | u :: rest, acc =>
    if checks acc.idx then { acc with idx := acc.idx + 1 }
    else
      runMP fetch nows checks rest
        { idx := acc.idx + 1
        , db := upsert_item acc.db (fetch u) (nows acc.idx)
        , fetched := acc.fetched ++ [u]
        , emitted := acc.emitted ++ [fetch u] }

/-- The per-item eBay loop of `worker_fetch` (`src/Untitled-1.py` lines
601-613): one `stop_event.is_set()` check before each parsed item, then
upsert and emit; no per-item page fetch (the items come from the single
search page). -/
def ebLoop (nows : ℕ → ℕ) (checks : ℕ → Bool) :
    List Item → CycleAcc → CycleAcc
  | [], acc => acc
  | it :: rest, acc =>
    if checks acc.idx then { acc with idx := acc.idx + 1 }
    else
      ebLoop nows checks rest
        { idx := acc.idx + 1
        , db := upsert_item acc.db it (nows acc.idx)
        , fetched := acc.fetched
        , emitted := acc.emitted ++ [it] }

/-- `worker_fetch` of `src/Untitled-1.py` (lines 560-619) at the
granularity the cancellation claim is about: the Marktplaats candidate
loop, then the `if not stop_event.is_set()` guard, then the eBay search
fetch and per-item loop. `mpURLs` and `ebayItems` are the results of the
external page extraction. -/
def worker_fetch (fetch : String → Item) (nows : ℕ → ℕ) (checks : ℕ → Bool)
    (db : DBState) (mpURLs : List String) (ebayItems : List Item) : CycleAcc :=
  let acc1 := runMP fetch nows checks mpURLs ⟨0, db, [], []⟩
  if checks acc1.idx then { acc1 with idx := acc1.idx + 1 }
  else
    ebLoop nows checks ebayItems
      { acc1 with idx := acc1.idx + 1, fetched := acc1.fetched ++ [SEARCH_EBAY] }

theorem runMP_growth (fetch : String → Item) (nows : ℕ → ℕ)
    (checks : ℕ → Bool) (urls : List String) (acc : CycleAcc) :
    (runMP fetch nows checks urls acc).fetched.length + acc.idx ≤
      acc.fetched.length + (runMP fetch nows checks urls acc).idx := by
  induction urls generalizing acc with
  | nil => simp [runMP]
  | cons u rest ih =>
    rw [runMP]
    by_cases hc : checks acc.idx
    · simp [hc]
    · simp only [hc, Bool.false_eq_true, if_false]
      have := ih ⟨acc.idx + 1, upsert_item acc.db (fetch u) (nows acc.idx),
        acc.fetched ++ [u], acc.emitted ++ [fetch u]⟩
      simp at this
      omega

theorem runMP_growth_le_stop (fetch : String → Item) (nows : ℕ → ℕ)
    (checks : ℕ → Bool) (j : ℕ)
    (hmono : ∀ a b, a ≤ b → checks a = true → checks b = true)
    (hj : checks j = true) (urls : List String) (acc : CycleAcc)
    (hi : acc.idx ≤ j) :
    (runMP fetch nows checks urls acc).fetched.length ≤
      acc.fetched.length + (j - acc.idx) := by
  induction urls generalizing acc with
  | nil => simp [runMP]
  | cons u rest ih =>
    rw [runMP]
    by_cases hc : checks acc.idx
    · simp [hc]
    · simp only [hc, Bool.false_eq_true, if_false]
      have hlt : acc.idx < j := by
        rcases Nat.lt_or_ge acc.idx j with h | h
        · exact h
        · exact absurd (hmono j acc.idx h hj) (by simp [hc])
      have := ih ⟨acc.idx + 1, upsert_item acc.db (fetch u) (nows acc.idx),
        acc.fetched ++ [u], acc.emitted ++ [fetch u]⟩ (by simpa using hlt)
      simp at this
      omega

theorem ebLoop_fetched (nows : ℕ → ℕ) (checks : ℕ → Bool)
    (items : List Item) (acc : CycleAcc) :
    (ebLoop nows checks items acc).fetched = acc.fetched := by
  induction items generalizing acc with
  | nil => simp [ebLoop]
  | cons it rest ih =>
    rw [ebLoop]
    by_cases hc : checks acc.idx
    · simp [hc]
    · simp only [hc, Bool.false_eq_true, if_false]
      exact ih _

theorem upsert_hist_filter_ne (db : DBState) (it : Item) (now : ℕ)
    (k : String) (hk : k ≠ it.key) :
    (upsert_item db it now).hist.filter (fun e => e.key = k) =
      db.hist.filter (fun e => e.key = k) := by
  rw [upsert_item_hist_eq, List.filter_append]
  have : (histDelta it now).filter (fun e => e.key = k) = [] := by
    unfold histDelta
    cases price_for_hist it with
    | none => rfl
    | some p =>
      simp only [List.filter_cons, List.filter_nil]
      rw [if_neg]
      simp
      exact fun h => hk h.symm
  rw [this, List.append_nil]

/-- Claim C8: cooperative cancellation of the scan cycle. First, once the
cancellation signal is set (its `j`-th observation and, by monotonicity,
every later one reads true), the cycle performs at most `j` candidate
fetches in total. Second, in the spec's scenario — signal set after
candidate 1's record is emitted and before candidate 2 is fetched — the
cycle fetches exactly candidate 1, emits exactly its record, leaves the
store as after that single upsert, and writes no history entry for any
other key (in particular none for candidate 2). -/
theorem worker_fetch_cancellation (fetch : String → Item) (nows : ℕ → ℕ)
    (checks : ℕ → Bool) (db : DBState) (ebayItems : List Item) :
    (∀ j, (∀ a b, a ≤ b → checks a = true → checks b = true) →
      checks j = true → ∀ mpURLs,
      (worker_fetch fetch nows checks db mpURLs ebayItems).fetched.length ≤ j)
    ∧ (∀ u₁ u₂ : String, ∀ rest : List String,
        checks 0 = false → (∀ n, 1 ≤ n → checks n = true) →
        worker_fetch fetch nows checks db (u₁ :: u₂ :: rest) ebayItems =
          ⟨3, upsert_item db (fetch u₁) (nows 0), [u₁], [fetch u₁]⟩
        ∧ ∀ k, k ≠ (fetch u₁).key →
            ((worker_fetch fetch nows checks db (u₁ :: u₂ :: rest)
                ebayItems).db.hist.filter (fun e => e.key = k)) =
              db.hist.filter (fun e => e.key = k)) := by
  constructor
  · intro j hmono hj mpURLs
    unfold worker_fetch
    set acc1 := runMP fetch nows checks mpURLs ⟨0, db, [], []⟩ with hacc1
    by_cases hc : checks acc1.idx
    · simp only [hc, if_true]
      have := runMP_growth_le_stop fetch nows checks j hmono hj mpURLs
        ⟨0, db, [], []⟩ (by simp)
      simpa using this
    · simp only [hc, Bool.false_eq_true, if_false]
      rw [ebLoop_fetched]
      have hg := runMP_growth fetch nows checks mpURLs ⟨0, db, [], []⟩
      have hlt : acc1.idx < j := by
        rcases Nat.lt_or_ge acc1.idx j with h | h
        · exact h
        · exact absurd (hmono j acc1.idx h hj) (by simp [hc])
      simp only [← hacc1] at hg
      simp at hg
      simp
      omega
  · intro u₁ u₂ rest h0 h1
    have h1' : checks 1 = true := h1 1 (le_refl 1)
    have h2' : checks 2 = true := h1 2 (by norm_num)
    have hrun : worker_fetch fetch nows checks db (u₁ :: u₂ :: rest) ebayItems =
        ⟨3, upsert_item db (fetch u₁) (nows 0), [u₁], [fetch u₁]⟩ := by
      unfold worker_fetch
      rw [runMP]
      simp only [h0, Bool.false_eq_true, if_false]
      rw [runMP]
      simp only [h1', if_true]
      simp [h2']
    refine ⟨hrun, ?_⟩
    intro k hk
    rw [hrun]
    exact upsert_hist_filter_ne db (fetch u₁) (nows 0) k hk

/-- Witness for C8: with the signal observed false once and true from the
second observation on, a concrete two-candidate cycle fetches and emits
only the first candidate and writes no history entry for the second
candidate's key. -/
theorem worker_fetch_cancellation_witness :
    worker_fetch
        (fun u => ⟨"MP:" ++ u, "Marktplaats", "t", u, some 5, none, some 5, ""⟩)
        (fun _ => 0) (fun i => decide (1 ≤ i)) ⟨[], []⟩ ["a", "b"] [] =
      ⟨3, upsert_item ⟨[], []⟩
          ⟨"MP:a", "Marktplaats", "t", "a", some 5, none, some 5, ""⟩ 0,
        ["a"], [⟨"MP:a", "Marktplaats", "t", "a", some 5, none, some 5, ""⟩]⟩
    ∧ (worker_fetch
        (fun u => ⟨"MP:" ++ u, "Marktplaats", "t", u, some 5, none, some 5, ""⟩)
        (fun _ => 0) (fun i => decide (1 ≤ i)) ⟨[], []⟩ ["a", "b"]
        []).db.hist.filter (fun e => e.key = "MP:b") = [] := by
  have h := (worker_fetch_cancellation
    (fun u => ⟨"MP:" ++ u, "Marktplaats", "t", u, some 5, none, some 5, ""⟩)
    (fun _ => 0) (fun i => decide (1 ≤ i)) ⟨[], []⟩ []).2 "a" "b" []
    (by decide) (fun n hn => by simp [hn])
  refine ⟨h.1, ?_⟩
  rw [h.2 "MP:b" (by decide)]
  rfl

/-- Match of the Python regular expression `/(m\x5cd+)-` at the head of the
text: a slash, the letter m, one or more digits, then a hyphen; the capture
is the m-id. Used by `parse_mp_ad` of `src/Untitled-1.py` (line 378). -/
def matchMAdIdAt (l : List Char) : Option (List Char) :=
  match l with
  | '/' :: 'm' :: rest =>
    let ds := rest.takeWhile Char.isDigit
    if ds.isEmpty then none
    else
      match rest.dropWhile Char.isDigit with
      | '-' :: _ => some ('m' :: ds)
      | _ => none
  | _ => none

/-- Leftmost search of `/(m\x5cd+)-` over the URL, as `re.search` does. -/
def searchMAdId : List Char → Option (List Char)
  | [] => none
  | c :: t =>
    match matchMAdIdAt (c :: t) with
    | some g => some g
    | none => searchMAdId t

/-- Key derivation of `parse_mp_ad` in `src/Untitled-1.py` (lines 378-380):
the m-id extracted from the URL when present, otherwise the fallback
`f"m\x7babs(hash(url)) % 10**10\x7d"`. CPython salts `hash` on `str` per
process (`PYTHONHASHSEED`), so the value of `hash(url)` is a property of
the run, not of the URL; the model therefore takes the process hash
function as a parameter. -/
def mpAdKey (pyHash : List Char → ℤ) (url : List Char) : List Char :=
  match searchMAdId url with
  | some adId => ("MP:").toList ++ adId
  | none => ("MP:m").toList ++ Nat.toDigits 10 ((pyHash url).natAbs % 10 ^ 10)

/-- Claim C9 (code bug): key derivation is deterministic only on URLs that
carry a native m-id. On a URL without one the key embeds `abs(hash(url))`,
and two runs whose process hash functions differ at that URL derive
different `ListingKey`s — history continuity across restarts is lost, as
design note 9 of the specification itself warns. -/
theorem mpAdKey_fallback_run_dependent :
    (∀ h : List Char → ℤ,
      mpAdKey h ("https://www.marktplaats.nl/v/computers/m12345-zx").toList =
        ("MP:m12345").toList)
    ∧ mpAdKey (fun _ => 0)
        ("https://www.marktplaats.nl/v/computers/zx-spectrum").toList ≠
      mpAdKey (fun _ => 1)
        ("https://www.marktplaats.nl/v/computers/zx-spectrum").toList := by
  constructor
  · intro h
    rfl
  · decide

/-- Python whitespace as used by `str.strip`, `float` and the regex class
`\x5cs` (space, tab, newline, carriage return, vertical tab, form feed). -/
def pyIsSpace (c : Char) : Bool :=
  c = ' ' || c = '\t' || c = '\n' || c = '\r' || c = '\x0b' || c = '\x0c'

/-- Python `str.lower` on one character (ASCII; the currency signs are
unaffected). -/
def pyLower (c : Char) : Char := c.toLower

/-- Python `str.strip()`. -/
def pyStrip (l : List Char) : List Char :=
  ((l.dropWhile pyIsSpace).reverse.dropWhile pyIsSpace).reverse

/-- Decimal value of a digit string. -/
def natOfDigits (l : List Char) : ℕ :=
  l.foldl (fun a c => a * 10 + (c.toNat - '0'.toNat)) 0

/-- Python `float(s)` on the strings reachable in this code base: after
stripping whitespace the text must be digits with at most one decimal dot
and at least one digit (signs, exponents and underscores never occur in
the regex captures fed to it). Returns the exact rational value; `None`
models `ValueError`. -/
def pyFloat? (l : List Char) : Option ℚ :=
  let t := pyStrip l
  if t.isEmpty then none
  else if t.all (fun c => c.isDigit || c = '.')
      ∧ t.count '.' ≤ 1 ∧ t.any (fun c => c.isDigit) then
    let ip := t.takeWhile (fun c => c ≠ '.')
    let fp := (t.dropWhile (fun c => c ≠ '.')).drop 1
    some ((natOfDigits ip : ℚ) + (natOfDigits fp : ℚ) / 10 ^ fp.length)
  else none

/-- Index of the last occurrence of a character, if any. -/
def lastIdx (c : Char) : List Char → Option ℕ
  | [] => none
  | x :: xs =>
    match lastIdx c xs with
    | some i => some (i + 1)
    | none => if x = c then some 0 else none

/-- Python `str.rfind` (-1 when absent). -/
def pyRfind (c : Char) (l : List Char) : ℤ :=
  match lastIdx c l with
  | some i => (i : ℤ)
  | none => -1

/-- Python `str.replace(c, "")` for a single character. -/
def removeAll (c : Char) (l : List Char) : List Char :=
  l.filter (fun x => x ≠ c)

/-- Python `str.replace(a, b)` for single characters. -/
def mapRepl (a b : Char) (l : List Char) : List Char :=
  l.map (fun x => if x = a then b else x)

/-- Whether the first list starts the second (exact characters). -/
def leadsWith : List Char → List Char → Bool
  | [], _ => true
  | _ :: _, [] => false
  | a :: as, b :: bs => a = b && leadsWith as bs

/-- Case-insensitive variant of `leadsWith` (ASCII folding as `re.I`). -/
def leadsWithCI : List Char → List Char → Bool
  | [], _ => true
  | _ :: _, [] => false
  | a :: as, b :: bs => pyLower a = pyLower b && leadsWithCI as bs

/-- Python `needle in hay` substring test. -/
def strHas (needle : List Char) : List Char → Bool
  | [] => needle.isEmpty
  | c :: t => leadsWith needle (c :: t) || strHas needle t

/-- Round half to even on the integers, the rounding Python's `round`
uses; the binary-float representation error that can shift a tie in CPython
is abstracted away by the exact-rational model. -/
def roundHalfEven (q : ℚ) : ℤ :=
  let f := ⌊q⌋
  let r := q - f
  if r < 1/2 then f
  else if 1/2 < r then f + 1
  else if f % 2 = 0 then f else f + 1

/-- Python `round(x, 2)`. -/
def pyRound2 (q : ℚ) : ℚ := (roundHalfEven (q * 100) : ℚ) / 100

/-- `_to_float` of `src/OLD/gui_zx_watcher_marktplaats_ebay_v31.py`
(lines 91-102): with both separators present the later kind is the decimal
point and the other is removed; with one kind present dots are removed and
a comma becomes the decimal point; `float` failure gives `None`. -/
def to_float (num : List Char) : Option ℚ :=
  if (',' ∈ num) ∧ ('.' ∈ num) then
    if pyRfind ',' num > pyRfind '.' num then
      pyFloat? (mapRepl ',' '.' (removeAll '.' num))
    else
      pyFloat? (removeAll ',' num)
  else
    pyFloat? (mapRepl ',' '.' (removeAll '.' num))

/-- The character class `[\x5cd .,,]` of the v31 money regexes. -/
def isAmtChar (c : Char) : Bool :=
  c.isDigit || c = ' ' || c = '.' || c = ','

/-- The v31 `CUR_MAP` with its default FX rates (GBP 1.17, USD 0.90,
AUD 0.60, CAD 0.68). -/
def CUR_MAP : List (List Char × ℚ) :=
  [("€".toList, 1), ("eur".toList, 1)
  , ("£".toList, 117/100), ("gbp".toList, 117/100)
  , ("$".toList, 9/10), ("usd".toList, 9/10)
  , ("aud".toList, 3/5), ("cad".toList, 17/25)]

/-- `CUR_MAP.get(cur, 1.0)`. -/
def curRate (cur : List Char) : ℚ :=
  ((CUR_MAP.find? (fun p => p.1 = cur)).map (fun p => p.2)).getD 1

/-- Match of the v31 currency alternation `(€|eur|£|gbp|\x5c$|usd|aud|cad)`
at the head of the (already lowercased) text: at most one branch can match
since no two branches share a first character. -/
def v31CurAt (l : List Char) : Option (List Char × List Char) :=
  match ["€", "eur", "£", "gbp", "$", "usd", "aud", "cad"].find?
      (fun tok => leadsWith tok.toList l) with
  | some tok => some (tok.toList, l.drop tok.toList.length)
  | none => none

/-- Match of the v31 pattern `(cur)\x5cs*([\x5cd .,,]+)` at the current
position: greedy whitespace, then the greedy amount class; when the class
cannot start after maximal whitespace the engine backtracks one space into
the class (yielding the single-space capture), exactly as Python's
backtracking does. -/
def v31MatchAt (l : List Char) : Option (List Char × List Char) :=
  match v31CurAt l with
  | none => none
  | some (cur, rest) =>
    let sp := rest.takeWhile pyIsSpace
    let r2 := rest.dropWhile pyIsSpace
    match r2 with
    | c :: _ =>
      if isAmtChar c then some (cur, r2.takeWhile isAmtChar)
      else if sp.isEmpty then none
      else some (cur, [' '])
    | [] => if sp.isEmpty then none else some (cur, [' '])

/-- Leftmost search of the v31 currency-amount pattern, as `re.search`. -/
def v31Search : List Char → Option (List Char × List Char)
  | [] => none
  | c :: t =>
    match v31MatchAt (c :: t) with
    | some r => some r
    | none => v31Search t

/-- Leftmost search of the bare-amount fallback `([\x5cd .,,]+)`. -/
def v31SearchAmt : List Char → Option (List Char)
  | [] => none
  | c :: t =>
    if isAmtChar c then some ((c :: t).takeWhile isAmtChar)
    else v31SearchAmt t

/-- `parse_money_to_eur` of
`src/OLD/gui_zx_watcher_marktplaats_ebay_v31.py` (lines 104-122): empty
text gives `None`; text containing `gratis` or `free` gives `0.0`; a
currency token followed by an amount run is converted at the static rate
and rounded to cents; otherwise a bare amount run is parsed unconverted;
otherwise `None`. -/
def parse_money_to_eur_v31 (txt : List Char) : Option ℚ :=
  if txt.isEmpty then none
  else
    let t := pyStrip txt
    let low := t.map pyLower
    if strHas ("gratis".toList) low || strHas ("free".toList) low then some 0
    else
      match v31Search low with
      | some (cur, amt) =>
        match to_float amt with
        | none => none
        | some amount => some (pyRound2 (amount * curRate cur))
      | none =>
        match v31SearchAmt t with
        | some amt => to_float amt
        | none => none

/-- `CURRENCY_SYMBOLS` of `src/Untitled-1.py` (lines 84-90), in insertion
order; the symbol test is a case-sensitive substring check. -/
def CURRENCY_SYMBOLS : List (List Char × String) :=
  [("€".toList, "EUR"), ("EUR".toList, "EUR")
  , ("£".toList, "GBP"), ("GBP".toList, "GBP")
  , ("$".toList, "USD"), ("USD".toList, "USD"), ("US$".toList, "USD")
  , ("AUD".toList, "AUD"), ("A$".toList, "AUD")
  , ("CAD".toList, "CAD"), ("C$".toList, "CAD")]

/-- The `FX` table of `src/Untitled-1.py` (lines 77-83) at its default
rates: EUR 1.0, GBP 1.16, USD 0.92, AUD 0.60, CAD 0.68. -/
def FX : List (String × ℚ) :=
  [("EUR", 1), ("GBP", 29/25), ("USD", 23/25), ("AUD", 3/5), ("CAD", 17/25)]

/-- Python regex word character (`\x5cw`, ASCII range; the inputs here are
ASCII). -/
def isWordCh (c : Char) : Bool := c.isAlphanum || c = '_'

/-- Match of `\x5cb code \x5cb` (case-insensitive) at the head of `l`,
where `before` is the character just left of the position. -/
def wordBoundAt (code : List Char) (before : Option Char) (l : List Char) : Bool :=
  leadsWithCI code l
    && (match before with | none => true | some c => !isWordCh c)
    && (match (l.drop code.length).head? with
        | none => true
        | some c => !isWordCh c)

/-- Search of `\x5cb code \x5cb` over the whole text, as
`re.search(rf"\x5cb code \x5cb", s, re.I)` in `src/Untitled-1.py` line 224. -/
def searchCode (code : List Char) (before : Option Char) : List Char → Bool
  | [] => false
  | c :: t => wordBoundAt code before (c :: t) || searchCode code (some c) t

/-- First `CURRENCY_SYMBOLS` entry whose symbol occurs in the text
(`src/Untitled-1.py` lines 216-220). -/
def u1FindSym : List (List Char × String) → List Char → Option String
  | [], _ => none
  | (sym, code) :: rest, s =>
    if strHas sym s then some code else u1FindSym rest s

/-- First of the five ISO codes found with word boundaries
(`src/Untitled-1.py` lines 222-226). -/
def u1FindCode (s : List Char) : Option String :=
  match ["EUR", "GBP", "USD", "AUD", "CAD"].find?
      (fun code => searchCode code.toList none s) with
  | some code => some code
  | none => none

/-- The candidate texts remaining after each branch of the `MONEY_RE`
currency alternation `([€£$]|EUR|GBP|USD|AUD|CAD|US\x5c$|A\x5c$|C\x5c$)?`
that matches at this position, in the order the backtracking engine tries
them; the final entry is the empty branch of the `?`. -/
def u1TryOpts (l : List Char) : List (List Char) :=
  (match l with
   | c :: t => if c = '€' || c = '£' || c = '$' then [t] else []
   | [] => [])
  ++ (["EUR", "GBP", "USD", "AUD", "CAD", "US$", "A$", "C$"].filterMap
      (fun tok =>
        if leadsWithCI tok.toList l then some (l.drop tok.toList.length)
        else none))
  ++ [l]

/-- Greedy match of `(?:[.,\x5cs][0-9]{3})*` of `MONEY_RE`: each unit is
one separator followed by exactly three digits; returns the consumed
characters and the rest. -/
def u1Units : List Char → List Char × List Char
  | s :: a :: b :: c :: r =>
    if (s = '.' || s = ',' || pyIsSpace s) && a.isDigit && b.isDigit && c.isDigit
    then
      let (us, r') := u1Units r
      (s :: a :: b :: c :: us, r')
    else ([], s :: a :: b :: c :: r)
  | l => ([], l)

/-- Match of the first `MONEY_RE` amount branch
`[0-9]{1,3}(?:[.,\x5cs][0-9]{3})*` (greedy): up to three leading digits,
then thousands groups. The second branch `[0-9]+` can never fire, since it
succeeds exactly when this one does. Returns the captured int part and the
rest. -/
def u1IntPart (l : List Char) : Option (List Char × List Char) :=
  match l with
  | c :: t =>
    if c.isDigit then
      let d1 := ((c :: t).takeWhile Char.isDigit).take 3
      let rest1 := (c :: t).drop d1.length
      let (us, rest2) := u1Units rest1
      some (d1 ++ us, rest2)
    else none
  | [] => none

/-- Match of the optional fraction `(?:[.,]([0-9]{1,2}))?` (greedy):
a separator immediately followed by one or two digits. Returns the
captured fraction digits (empty when the group is absent). -/
def u1Frac (l : List Char) : List Char :=
  match l with
  | c :: d :: e :: _ =>
    if (c = '.' || c = ',') && d.isDigit then
      if e.isDigit then [d, e] else [d]
    else []
  | c :: d :: _ =>
    if (c = '.' || c = ',') && d.isDigit then [d] else []
  | _ => []

/-- First currency branch whose continuation (whitespace then amount)
matches, as the backtracking engine resolves the alternation; yields the
`(intpart, frac)` captures. -/
def firstIntPart : List (List Char) → Option (List Char × List Char)
  | [] => none
  | r :: rs =>
    match u1IntPart (r.dropWhile pyIsSpace) with
    | some (ip, r3) => some (ip, u1Frac r3)
    | none => firstIntPart rs

/-- Leftmost `MONEY_RE.search` of `src/Untitled-1.py` (line 208): scan
positions left to right, at each trying the currency branches in order
followed by whitespace and the amount; returns the `(intpart, frac)`
captures of the first success. -/
def u1Search : List Char → Option (List Char × List Char)
  | [] => none
  | c :: t =>
    match firstIntPart (u1TryOpts (c :: t)) with
    | some r => some r
    | none => u1Search t

/-- `parse_money_to_eur` of `src/Untitled-1.py` (lines 210-242): detect a
currency by symbol substring, then by worded ISO code, defaulting to EUR;
search `MONEY_RE`; strip separators from the int part, add the 1-2 digit
fraction, convert at the FX rate and round to cents. No free or bid-only
keyword is recognized anywhere. -/
def parse_money_to_eur_u1 (txt : List Char) : Option ℚ :=
  if txt.isEmpty then none
  else
    let s := pyStrip txt
    let curr :=
      match u1FindSym CURRENCY_SYMBOLS s with
      | some c => c
      | none =>
        match u1FindCode s with
        | some c => c
        | none => "EUR"
    match u1Search s with
    | none => none
    | some (ip, frac) =>
      let cleanInt := ip.filter (fun c => !(c = '.' || c = ',' || pyIsSpace c))
      let value : ℚ := (natOfDigits cleanInt : ℚ) +
        (if frac.isEmpty then 0 else (natOfDigits frac : ℚ) / 10 ^ frac.length)
      let fx := ((FX.find? (fun p => p.1 = curr)).map (fun p => p.2)).getD 1
      some (pyRound2 (value * fx))

theorem digit_ne_dot {c : Char} (h : c.isDigit = true) : c ≠ '.' := by
  intro hc; rw [hc] at h; exact absurd h (by decide)

theorem digit_ne_comma {c : Char} (h : c.isDigit = true) : c ≠ ',' := by
  intro hc; rw [hc] at h; exact absurd h (by decide)

theorem digit_not_space {c : Char} (h : c.isDigit = true) :
    pyIsSpace c = false := by
  cases hs : pyIsSpace c with
  | false => rfl
  | true =>
    exfalso
    unfold pyIsSpace at hs
    simp only [Bool.or_eq_true, decide_eq_true_eq] at hs
    rcases hs with ((((h1 | h1) | h1) | h1) | h1) | h1 <;>
      (rw [h1] at h; exact absurd h (by decide))

theorem dropWhile_none {p : Char → Bool} {l : List Char}
    (h : ∀ c ∈ l, p c = false) : l.dropWhile p = l := by
  cases l with
  | nil => rfl
  | cons x xs =>
    rw [List.dropWhile_cons, h x (List.mem_cons_self x xs)]
    simp

theorem pyStrip_no_space {l : List Char}
    (h : ∀ c ∈ l, pyIsSpace c = false) : pyStrip l = l := by
  unfold pyStrip
  rw [dropWhile_none h]
  rw [dropWhile_none (fun c hc => h c (List.mem_reverse.mp hc))]
  exact List.reverse_reverse l

theorem filter_ne_all {l : List Char} {ch : Char}
    (h : ∀ c ∈ l, c ≠ ch) : removeAll ch l = l := by
  unfold removeAll
  induction l with
  | nil => rfl
  | cons x xs ih =>
    rw [List.filter_cons]
    rw [if_pos (by simpa using h x (List.mem_cons_self x xs))]
    rw [ih (fun c hc => h c (List.mem_cons_of_mem x hc))]

theorem mapRepl_id {l : List Char} {a b : Char}
    (h : ∀ c ∈ l, c ≠ a) : mapRepl a b l = l := by
  unfold mapRepl
  induction l with
  | nil => rfl
  | cons x xs ih =>
    rw [List.map_cons, if_neg (h x (List.mem_cons_self x xs))]
    rw [ih (fun c hc => h c (List.mem_cons_of_mem x hc))]

theorem lastIdx_cons (c ch : Char) (l : List Char) :
    lastIdx c (ch :: l) =
      match lastIdx c l with
      | some i => some (i + 1)
      | none => if ch = c then some 0 else none := rfl

theorem lastIdx_none {c : Char} {l : List Char}
    (h : ∀ ch ∈ l, ch ≠ c) : lastIdx c l = none := by
  induction l with
  | nil => rfl
  | cons x xs ih =>
    rw [lastIdx_cons, ih (fun ch hc => h ch (List.mem_cons_of_mem x hc))]
    simp only [if_neg (h x (List.mem_cons_self x xs))]

theorem lastIdx_append (c : Char) (a b : List Char) :
    lastIdx c (a ++ b) =
      match lastIdx c b with
      | some i => some (a.length + i)
      | none => lastIdx c a := by
  induction a with
  | nil => cases hb : lastIdx c b <;> simp [hb, lastIdx]
  | cons x xs ih =>
    rw [List.cons_append, lastIdx_cons, ih, lastIdx_cons]
    cases hb : lastIdx c b with
    | some i =>
      simp only [List.length_cons]
      congr 1
      omega
    | none => rfl

theorem takeWhile_ne_dot (a b : List Char) (ha : ∀ c ∈ a, c ≠ '.') :
    (a ++ '.' :: b).takeWhile (fun c => c ≠ '.') = a
    ∧ (a ++ '.' :: b).dropWhile (fun c => c ≠ '.') = '.' :: b := by
  induction a with
  | nil =>
    constructor
    · rw [List.nil_append, List.takeWhile_cons]
      simp
    · rw [List.nil_append, List.dropWhile_cons]
      simp
  | cons x xs ih =>
    have hx : x ≠ '.' := ha x (List.mem_cons_self x xs)
    have ih' := ih (fun c hc => ha c (List.mem_cons_of_mem x hc))
    constructor
    · rw [List.cons_append, List.takeWhile_cons,
        if_pos (by simpa using hx), ih'.1]
    · rw [List.cons_append, List.dropWhile_cons]
      rw [if_pos (by simpa using hx), ih'.2]

theorem takeWhile_ne_dot_all (a : List Char) (ha : ∀ c ∈ a, c ≠ '.') :
    a.takeWhile (fun c => c ≠ '.') = a
    ∧ a.dropWhile (fun c => c ≠ '.') = [] := by
  induction a with
  | nil => exact ⟨rfl, rfl⟩
  | cons x xs ih =>
    have hx : x ≠ '.' := ha x (List.mem_cons_self x xs)
    have ih' := ih (fun c hc => ha c (List.mem_cons_of_mem x hc))
    constructor
    · rw [List.takeWhile_cons, if_pos (by simpa using hx), ih'.1]
    · rw [List.dropWhile_cons, if_pos (by simpa using hx), ih'.2]

theorem pyFloat_digits_dot (a b : List Char)
    (ha : ∀ c ∈ a, c.isDigit = true) (hb : ∀ c ∈ b, c.isDigit = true)
    (hne : a ≠ [] ∨ b ≠ []) :
    pyFloat? (a ++ '.' :: b) =
      some ((natOfDigits a : ℚ) + (natOfDigits b : ℚ) / 10 ^ b.length) := by
  have hsp : ∀ c ∈ a ++ '.' :: b, pyIsSpace c = false := by
    intro c hc
    rcases List.mem_append.mp hc with h | h
    · exact digit_not_space (ha c h)
    · rcases List.mem_cons.mp h with h | h
      · rw [h]; decide
      · exact digit_not_space (hb c h)
  simp only [pyFloat?]
  rw [pyStrip_no_space hsp]
  rw [if_neg (by simp)]
  rw [if_pos ?cond]
  case cond =>
    refine ⟨?_, ?_, ?_⟩
    · simp only [List.all_append, List.all_cons, Bool.and_eq_true]
      refine ⟨?_, ?_, ?_⟩
      · rw [List.all_eq_true]
        intro c hc
        simp [ha c hc]
      · decide
      · rw [List.all_eq_true]
        intro c hc
        simp [hb c hc]
    · rw [List.count_append, List.count_cons]
      have hca : a.count '.' = 0 :=
        List.count_eq_zero.mpr (fun hc => digit_ne_dot (ha '.' hc) rfl)
      have hcb : b.count '.' = 0 :=
        List.count_eq_zero.mpr (fun hc => digit_ne_dot (hb '.' hc) rfl)
      simp [hca, hcb]
    · rw [List.any_eq_true]
      rcases hne with h | h
      · obtain ⟨c, hc⟩ := List.exists_mem_of_ne_nil a h
        exact ⟨c, List.mem_append_left _ hc, by simp [ha c hc]⟩
      · obtain ⟨c, hc⟩ := List.exists_mem_of_ne_nil b h
        exact ⟨c, List.mem_append_right _ (List.mem_cons_of_mem _ hc),
          by simp [hb c hc]⟩
  have hsplit := takeWhile_ne_dot a b (fun c hc => digit_ne_dot (ha c hc))
  rw [hsplit.1, hsplit.2]
  rfl

theorem pyFloat_digits (a : List Char)
    (ha : ∀ c ∈ a, c.isDigit = true) (hne : a ≠ []) :
    pyFloat? a = some ((natOfDigits a : ℚ)) := by
  have hsp : ∀ c ∈ a, pyIsSpace c = false :=
    fun c hc => digit_not_space (ha c hc)
  simp only [pyFloat?]
  rw [pyStrip_no_space hsp]
  rw [if_neg (by simp [hne])]
  rw [if_pos ?cond]
  case cond =>
    refine ⟨?_, ?_, ?_⟩
    · rw [List.all_eq_true]
      intro c hc
      simp [ha c hc]
    · have hca : a.count '.' = 0 :=
        List.count_eq_zero.mpr (fun hc => digit_ne_dot (ha '.' hc) rfl)
      simp [hca]
    · rw [List.any_eq_true]
      obtain ⟨c, hc⟩ := List.exists_mem_of_ne_nil a hne
      exact ⟨c, hc, by simp [ha c hc]⟩
  have hsplit := takeWhile_ne_dot_all a (fun c hc => digit_ne_dot (ha c hc))
  rw [hsplit.1, hsplit.2]
  simp [natOfDigits]

theorem removeAll_append (ch : Char) (a b : List Char) :
    removeAll ch (a ++ b) = removeAll ch a ++ removeAll ch b := by
  unfold removeAll; exact List.filter_append a b

theorem removeAll_cons_self (ch : Char) (l : List Char) :
    removeAll ch (ch :: l) = removeAll ch l := by
  unfold removeAll; rw [List.filter_cons]; simp

theorem removeAll_cons_ne (ch c : Char) (l : List Char) (h : c ≠ ch) :
    removeAll ch (c :: l) = c :: removeAll ch l := by
  unfold removeAll; rw [List.filter_cons]; simp [h]

theorem mapRepl_append (a b : Char) (x y : List Char) :
    mapRepl a b (x ++ y) = mapRepl a b x ++ mapRepl a b y := by
  unfold mapRepl; exact List.map_append _ x y

theorem mapRepl_cons_self (a b : Char) (l : List Char) :
    mapRepl a b (a :: l) = b :: mapRepl a b l := by
  unfold mapRepl; rw [List.map_cons]; simp

theorem to_float_dot_comma (x y z : List Char)
    (hx : ∀ c ∈ x, c.isDigit = true) (hy : ∀ c ∈ y, c.isDigit = true)
    (hz : ∀ c ∈ z, c.isDigit = true) (hne : x ++ y ≠ [] ∨ z ≠ []) :
    to_float (x ++ '.' :: y ++ ',' :: z) =
      some ((natOfDigits (x ++ y) : ℚ) + (natOfDigits z : ℚ) / 10 ^ z.length) := by
  have hzc : lastIdx ',' z = none :=
    lastIdx_none (fun ch hc => digit_ne_comma (hz ch hc))
  have hzd : lastIdx '.' z = none :=
    lastIdx_none (fun ch hc => digit_ne_dot (hz ch hc))
  have hyd : lastIdx '.' y = none :=
    lastIdx_none (fun ch hc => digit_ne_dot (hy ch hc))
  unfold to_float
  rw [if_pos ⟨by simp, by simp⟩]
  rw [if_pos (by
    unfold pyRfind
    simp [lastIdx_append, lastIdx_cons, hzc, hzd, hyd])]
  rw [removeAll_append, removeAll_append, removeAll_cons_self,
    removeAll_cons_ne _ _ _ (by decide : (',' : Char) ≠ '.'),
    filter_ne_all (fun c hc => digit_ne_dot (hx c hc)),
    filter_ne_all (fun c hc => digit_ne_dot (hy c hc)),
    filter_ne_all (fun c hc => digit_ne_dot (hz c hc))]
  rw [mapRepl_append, mapRepl_cons_self,
    mapRepl_id (fun c hc => by
      rcases List.mem_append.mp hc with h | h
      · exact digit_ne_comma (hx c h)
      · exact digit_ne_comma (hy c h)),
    mapRepl_id (fun c hc => digit_ne_comma (hz c hc))]
  exact pyFloat_digits_dot (x ++ y) z
    (fun c hc => by
      rcases List.mem_append.mp hc with h | h
      · exact hx c h
      · exact hy c h)
    hz hne

theorem to_float_comma_dot (x y z : List Char)
    (hx : ∀ c ∈ x, c.isDigit = true) (hy : ∀ c ∈ y, c.isDigit = true)
    (hz : ∀ c ∈ z, c.isDigit = true) (hne : x ++ y ≠ [] ∨ z ≠ []) :
    to_float (x ++ ',' :: y ++ '.' :: z) =
      some ((natOfDigits (x ++ y) : ℚ) + (natOfDigits z : ℚ) / 10 ^ z.length) := by
  have hyc : lastIdx ',' y = none :=
    lastIdx_none (fun ch hc => digit_ne_comma (hy ch hc))
  have hzc : lastIdx ',' z = none :=
    lastIdx_none (fun ch hc => digit_ne_comma (hz ch hc))
  have hzd : lastIdx '.' z = none :=
    lastIdx_none (fun ch hc => digit_ne_dot (hz ch hc))
  unfold to_float
  rw [if_pos ⟨by simp, by simp⟩]
  rw [if_neg (by
    unfold pyRfind
    simp [lastIdx_append, lastIdx_cons, hyc, hzc, hzd]
    omega)]
  rw [removeAll_append, removeAll_append, removeAll_cons_self,
    removeAll_cons_ne _ _ _ (by decide : ('.' : Char) ≠ ','),
    filter_ne_all (fun c hc => digit_ne_comma (hx c hc)),
    filter_ne_all (fun c hc => digit_ne_comma (hy c hc)),
    filter_ne_all (fun c hc => digit_ne_comma (hz c hc))]
  exact pyFloat_digits_dot (x ++ y) z
    (fun c hc => by
      rcases List.mem_append.mp hc with h | h
      · exact hx c h
      · exact hy c h)
    hz hne

theorem to_float_comma_only (x z : List Char)
    (hx : ∀ c ∈ x, c.isDigit = true) (hz : ∀ c ∈ z, c.isDigit = true)
    (hne : x ≠ [] ∨ z ≠ []) :
    to_float (x ++ ',' :: z) =
      some ((natOfDigits x : ℚ) + (natOfDigits z : ℚ) / 10 ^ z.length) := by
  unfold to_float
  rw [if_neg (by
    rintro ⟨-, hdot⟩
    rcases List.mem_append.mp hdot with h | h
    · exact digit_ne_dot (hx '.' h) rfl
    · rcases List.mem_cons.mp h with h | h
      · exact absurd h.symm (by decide : (',' : Char) ≠ '.')
      · exact digit_ne_dot (hz '.' h) rfl)]
  rw [removeAll_append, removeAll_cons_ne _ _ _ (by decide : (',' : Char) ≠ '.'),
    filter_ne_all (fun c hc => digit_ne_dot (hx c hc)),
    filter_ne_all (fun c hc => digit_ne_dot (hz c hc))]
  rw [mapRepl_append, mapRepl_cons_self,
    mapRepl_id (fun c hc => digit_ne_comma (hx c hc)),
    mapRepl_id (fun c hc => digit_ne_comma (hz c hc))]
  exact pyFloat_digits_dot x z hx hz hne

theorem to_float_dot_only (x y : List Char)
    (hx : ∀ c ∈ x, c.isDigit = true) (hy : ∀ c ∈ y, c.isDigit = true)
    (hne : x ++ y ≠ []) :
    to_float (x ++ '.' :: y) = some ((natOfDigits (x ++ y) : ℚ)) := by
  unfold to_float
  rw [if_neg (by
    rintro ⟨hcom, -⟩
    rcases List.mem_append.mp hcom with h | h
    · exact digit_ne_comma (hx ',' h) rfl
    · rcases List.mem_cons.mp h with h | h
      · exact absurd h (by decide : (',' : Char) ≠ '.')
      · exact digit_ne_comma (hy ',' h) rfl)]
  rw [removeAll_append, removeAll_cons_self,
    filter_ne_all (fun c hc => digit_ne_dot (hx c hc)),
    filter_ne_all (fun c hc => digit_ne_dot (hy c hc))]
  rw [mapRepl_id (fun c hc => by
    rcases List.mem_append.mp hc with h | h
    · exact digit_ne_comma (hx c h)
    · exact digit_ne_comma (hy c h))]
  exact pyFloat_digits (x ++ y)
    (fun c hc => by
      rcases List.mem_append.mp hc with h | h
      · exact hx c h
      · exact hy c h)
    hne

/-- Claim C6 counterexample: by the claim's rule the amount string
`"12,345"` — three digits after its only (rightmost) separator — would be
the integer 12345, but `_to_float` treats the comma as a decimal point and
yields 12.345. -/
theorem to_float_counterexample :
    to_float ("12,345".toList) = some (2469/200)
    ∧ ((2469/200 : ℚ) ≠ 12345) := by
  constructor
  · have hstep : to_float ("12,345".toList) =
        some ((natOfDigits ("12".toList) : ℚ) +
          (natOfDigits ("345".toList) : ℚ) / 10 ^ ("345".toList).length) := rfl
    have e1 : natOfDigits ("12".toList) = 12 := by decide
    have e2 : natOfDigits ("345".toList) = 345 := by decide
    have e3 : ("345".toList).length = 3 := by decide
    rw [hstep, e1, e2, e3]
    exact congrArg some (by norm_num)
  · norm_num

/-- Claim C6 as amended: `_to_float` of the v31 normalizer decides the
decimal separator by kind and position alone, never by the length of the
digit run that follows. When both a dot and a comma occur, the later kind
is the decimal point and the other kind is removed as thousands
separators; when only a comma occurs it is the decimal point and when only
a dot occurs it is a thousands separator — in each case regardless of how
many digits follow. The headline example holds in both normalizers:
`normalize("1.234,56 EUR") = 1234.56`. -/
theorem to_float_rightmost_separator :
    (∀ x y z : List Char,
      (∀ c ∈ x, c.isDigit = true) → (∀ c ∈ y, c.isDigit = true) →
      (∀ c ∈ z, c.isDigit = true) → (x ++ y ≠ [] ∨ z ≠ []) →
      to_float (x ++ '.' :: y ++ ',' :: z) =
        some ((natOfDigits (x ++ y) : ℚ) + (natOfDigits z : ℚ) / 10 ^ z.length))
    ∧ (∀ x y z : List Char,
      (∀ c ∈ x, c.isDigit = true) → (∀ c ∈ y, c.isDigit = true) →
      (∀ c ∈ z, c.isDigit = true) → (x ++ y ≠ [] ∨ z ≠ []) →
      to_float (x ++ ',' :: y ++ '.' :: z) =
        some ((natOfDigits (x ++ y) : ℚ) + (natOfDigits z : ℚ) / 10 ^ z.length))
    ∧ (∀ x z : List Char,
      (∀ c ∈ x, c.isDigit = true) → (∀ c ∈ z, c.isDigit = true) →
      (x ≠ [] ∨ z ≠ []) →
      to_float (x ++ ',' :: z) =
        some ((natOfDigits x : ℚ) + (natOfDigits z : ℚ) / 10 ^ z.length))
    ∧ (∀ x y : List Char,
      (∀ c ∈ x, c.isDigit = true) → (∀ c ∈ y, c.isDigit = true) →
      (x ++ y ≠ []) →
      to_float (x ++ '.' :: y) = some ((natOfDigits (x ++ y) : ℚ)))
    ∧ parse_money_to_eur_u1 ("1.234,56 EUR".toList) = some (30864/25)
    ∧ parse_money_to_eur_v31 ("1.234,56 EUR".toList) = some (30864/25) := by
  refine ⟨to_float_dot_comma, to_float_comma_dot, to_float_comma_only,
    to_float_dot_only, ?_, ?_⟩
  · have hstep : parse_money_to_eur_u1 ("1.234,56 EUR".toList) =
        some (pyRound2 (((natOfDigits ("1234".toList) : ℚ) +
          (natOfDigits ("56".toList) : ℚ) / 10 ^ ("56".toList).length) * 1)) := rfl
    have e1 : natOfDigits ("1234".toList) = 1234 := by decide
    have e2 : natOfDigits ("56".toList) = 56 := by decide
    have e3 : ("56".toList).length = 2 := by decide
    rw [hstep, e1, e2, e3]
    refine congrArg some ?_
    have : (((1234 : ℕ) : ℚ) + ((56 : ℕ) : ℚ) / 10 ^ 2) * 1 = 123456 / 100 := by
      norm_num
    rw [this]
    unfold pyRound2 roundHalfEven
    norm_num
  · have hstep : parse_money_to_eur_v31 ("1.234,56 EUR".toList) =
        some ((natOfDigits ("1234".toList) : ℚ) +
          (natOfDigits ("56".toList) : ℚ) / 10 ^ ("56".toList).length) := rfl
    have e1 : natOfDigits ("1234".toList) = 1234 := by decide
    have e2 : natOfDigits ("56".toList) = 56 := by decide
    have e3 : ("56".toList).length = 2 := by decide
    rw [hstep, e1, e2, e3]
    exact congrArg some (by norm_num)

/-- Witness for C6: the amended separator rule evaluated at the concrete
splits behind `"1.234,56"` and `"12,345"`. -/
theorem to_float_rightmost_separator_witness :
    to_float ("1.234,56".toList) = some ((30864 : ℚ) / 25)
    ∧ to_float ("1,234.5".toList) = some ((2469 : ℚ) / 2) := by
  constructor
  · have h := to_float_rightmost_separator.1 ("1".toList) ("234".toList)
      ("56".toList) (by decide) (by decide) (by decide) (Or.inl (by decide))
    have e1 : natOfDigits ("1".toList ++ "234".toList) = 1234 := by decide
    have e2 : natOfDigits ("56".toList) = 56 := by decide
    have e3 : ("56".toList).length = 2 := by decide
    rw [e1, e2, e3] at h
    refine Eq.trans ?_ (h.trans (congrArg some (by norm_num)))
    rfl
  · have h := to_float_rightmost_separator.2.1 ("1".toList) ("234".toList)
      ("5".toList) (by decide) (by decide) (by decide) (Or.inl (by decide))
    have e1 : natOfDigits ("1".toList ++ "234".toList) = 1234 := by decide
    have e2 : natOfDigits ("5".toList) = 5 := by decide
    have e3 : ("5".toList).length = 1 := by decide
    rw [e1, e2, e3] at h
    refine Eq.trans ?_ (h.trans (congrArg some (by norm_num)))
    rfl

/-- Claim C5 counterexample: the current normalizer
(`parse_money_to_eur` of `src/Untitled-1.py`) parses
`"Gratis verzending"` to `None`, not to the `0.00` the claim requires for
recognized free-shipping language. -/
theorem u1_gratis_counterexample :
    parse_money_to_eur_u1 ("Gratis verzending".toList) = none
    ∧ parse_money_to_eur_u1 ("Gratis verzending".toList) ≠ some 0 := by
  constructor
  · decide
  · decide

/-- Claim C5 as amended: the current normalizer (Untitled-1) recognizes no
free or bid-only keywords at all — both `"Gratis verzending"` and
`"Bieden"` yield `None` (no digits to parse). The superseded v31
normalizer maps any non-empty text containing `gratis` or `free` to 0.00
and maps `"Bieden"` to `None`. -/
theorem parse_money_free_bid_amended :
    parse_money_to_eur_u1 ("Gratis verzending".toList) = none
    ∧ parse_money_to_eur_u1 ("Bieden".toList) = none
    ∧ parse_money_to_eur_v31 ("Bieden".toList) = none
    ∧ (∀ txt : List Char, txt ≠ [] →
        (strHas ("gratis".toList) ((pyStrip txt).map pyLower) = true ∨
         strHas ("free".toList) ((pyStrip txt).map pyLower) = true) →
        parse_money_to_eur_v31 txt = some 0) := by
  refine ⟨by decide, by decide, by decide, ?_⟩
  intro txt hne hfree
  have hemp : txt.isEmpty = false := by
    cases txt with
    | nil => exact absurd rfl hne
    | cons c t => rfl
  have hcond : (strHas ("gratis".toList) ((pyStrip txt).map pyLower)
      || strHas ("free".toList) ((pyStrip txt).map pyLower)) = true := by
    rw [Bool.or_eq_true]
    rcases hfree with h | h
    · exact Or.inl h
    · exact Or.inr h
  simp only [parse_money_to_eur_v31, hemp, Bool.false_eq_true, if_false,
    hcond, if_true]

/-- Witness for C5: the v31 normalizer at `"Gratis verzending"` returns
exactly 0.00 through the amended free-language rule. -/
theorem parse_money_free_bid_amended_witness :
    parse_money_to_eur_v31 ("Gratis verzending".toList) = some 0 :=
  parse_money_free_bid_amended.2.2.2 ("Gratis verzending".toList)
    (by decide) (Or.inl (by decide))

/-- Shared state of the store process: the SQLite data plus the journal of
values returned by completed reads (so that what a reader observed is part
of the final state and covered by serializability). -/
structure ObsState where
  db : DBState
  obs : List (List ℚ)

/-- First SQL statement of `Store.upsert_item` executed under the lock of
`src/db.py`: the `INSERT ... ON CONFLICT(key) DO UPDATE` on `ads`. -/
def upsertStep1 (it : Item) (now : ℕ) (s : ObsState) : ObsState :=
  { s with db := { s.db with ads := upsertAds s.db.ads it now } }

/-- Second statement of `Store.upsert_item` under the same lock: the
Python-side derivable-price check and, when it passes, the
`INSERT INTO price_history` (the check reads only the record, so check and
insert form one step). -/
def upsertStep2 (it : Item) (now : ℕ) (s : ObsState) : ObsState :=
  { s with db := { s.db with hist := s.db.hist ++ histDelta it now } }

/-- The body of `Store.upsert_item` as the sequence of its statements. -/
def upsertBody (it : Item) (now : ℕ) : List (ObsState → ObsState) :=
  [upsertStep1 it now, upsertStep2 it now]

/-- The body of `Store.get_price_history` under the lock: one `SELECT`,
whose result is journalled. -/
def readBody (key : String) (limit : ℕ) : List (ObsState → ObsState) :=
  [fun s => { s with obs := s.obs ++ [get_price_history s.db key limit] }]

/-- Position of one thread in `with self.lock: body`: before the acquire,
inside the critical section with the remaining statements, or after the
release. -/
inductive ThreadSt where
  | notStarted
  | running (rest : List (ObsState → ObsState))
  | finished

/-- A configuration of two threads sharing one `threading.Lock` and the
store state. -/
structure Config where
  lock : Option Bool
  thA : ThreadSt
  thB : ThreadSt
  s : ObsState

/-- One scheduler step of thread A: acquiring blocks while the lock is
held (the step is a no-op, as a blocked Python thread makes no progress);
statements of the body execute one at a time; the final step releases. -/
def stepA (bodyA : List (ObsState → ObsState)) (c : Config) : Config :=
  match c.thA with
  | .notStarted =>
    if c.lock = none then { c with lock := some true, thA := .running bodyA }
    else c
  | .running (f :: rest) => { c with s := f c.s, thA := .running rest }
  | .running [] => { c with lock := none, thA := .finished }
  | .finished => c

/-- One scheduler step of thread B. -/
def stepB (bodyB : List (ObsState → ObsState)) (c : Config) : Config :=
  match c.thB with
  | .notStarted =>
    if c.lock = none then { c with lock := some false, thB := .running bodyB }
    else c
  | .running (f :: rest) => { c with s := f c.s, thB := .running rest }
  | .running [] => { c with lock := none, thB := .finished }
  | .finished => c

/-- One step of the chosen thread. -/
def step (bA bB : List (ObsState → ObsState)) (c : Config) (t : Bool) : Config :=
  if t then stepA bA c else stepB bB c

/-- Run a whole schedule (an arbitrary interleaving of the two threads). -/
def exec (bA bB : List (ObsState → ObsState)) (c : Config)
    (sched : List Bool) : Config :=
  sched.foldl (step bA bB) c

/-- Sequential execution of a body. -/
def applyAll (l : List (ObsState → ObsState)) (s : ObsState) : ObsState :=
  l.foldl (fun s f => f s) s

/-- Initial configuration: lock free, both threads before their acquire. -/
def initConfig (s₀ : ObsState) : Config :=
  ⟨none, .notStarted, .notStarted, s₀⟩

theorem applyAll_snoc (p : List (ObsState → ObsState))
    (f : ObsState → ObsState) (s : ObsState) :
    applyAll (p ++ [f]) s = f (applyAll p s) := by
  unfold applyAll
  rw [List.foldl_append]
  rfl

/-- Reachability invariant of the two lock-wrapped threads: at every
moment at most one thread is inside its critical section (it holds the
lock), and the shared state is a serial prefix — the not-yet-started or
finished thread contributes all-or-nothing. -/
def Inv (bA bB : List (ObsState → ObsState)) (s₀ : ObsState) (c : Config) : Prop :=
  (c.thA = .notStarted ∧ c.thB = .notStarted ∧ c.lock = none ∧ c.s = s₀)
  ∨ (∃ p r, bA = p ++ r ∧ c.thA = .running r ∧ c.thB = .notStarted
      ∧ c.lock = some true ∧ c.s = applyAll p s₀)
  ∨ (c.thA = .finished ∧ c.thB = .notStarted ∧ c.lock = none
      ∧ c.s = applyAll bA s₀)
  ∨ (∃ p r, bB = p ++ r ∧ c.thA = .finished ∧ c.thB = .running r
      ∧ c.lock = some false ∧ c.s = applyAll p (applyAll bA s₀))
  ∨ (c.thA = .finished ∧ c.thB = .finished ∧ c.lock = none
      ∧ c.s = applyAll bB (applyAll bA s₀))
  ∨ (∃ p r, bB = p ++ r ∧ c.thB = .running r ∧ c.thA = .notStarted
      ∧ c.lock = some false ∧ c.s = applyAll p s₀)
  ∨ (c.thB = .finished ∧ c.thA = .notStarted ∧ c.lock = none
      ∧ c.s = applyAll bB s₀)
  ∨ (∃ p r, bA = p ++ r ∧ c.thB = .finished ∧ c.thA = .running r
      ∧ c.lock = some true ∧ c.s = applyAll p (applyAll bB s₀))
  ∨ (c.thB = .finished ∧ c.thA = .finished ∧ c.lock = none
      ∧ c.s = applyAll bA (applyAll bB s₀))

theorem step_preserves_Inv (bA bB : List (ObsState → ObsState))
    (s₀ : ObsState) (c : Config) (t : Bool) (h : Inv bA bB s₀ c) :
    Inv bA bB s₀ (step bA bB c t) := by
  cases t with
  | true =>
    show Inv bA bB s₀ (stepA bA c)
    rcases h with ⟨ha, hb, hl, hs⟩ | ⟨p, r, hpr, ha, hb, hl, hs⟩ |
      ⟨ha, hb, hl, hs⟩ | ⟨p, r, hpr, ha, hb, hl, hs⟩ | ⟨ha, hb, hl, hs⟩ |
      ⟨p, r, hpr, hb, ha, hl, hs⟩ | ⟨hb, ha, hl, hs⟩ |
      ⟨p, r, hpr, hb, ha, hl, hs⟩ | ⟨hb, ha, hl, hs⟩
    · right; left
      refine ⟨[], bA, by simp, ?_⟩
      simp [stepA, ha, hl, hb, hs, applyAll]
    · cases r with
      | nil =>
        right; right; left
        have hba : bA = p := by simpa using hpr
        refine ⟨?_, ?_, ?_, ?_⟩ <;> simp [stepA, ha, hb, hs, hba]
      | cons f rest =>
        right; left
        refine ⟨p ++ [f], rest, by simp [hpr], ?_⟩
        simp [stepA, ha, hb, hl, hs, applyAll_snoc]
    · right; right; left
      refine ⟨?_, ?_, ?_, ?_⟩ <;> simp [stepA, ha, hb, hl, hs]
    · right; right; right; left
      refine ⟨p, r, hpr, ?_⟩
      simp [stepA, ha, hb, hl, hs]
    · right; right; right; right; left
      refine ⟨?_, ?_, ?_, ?_⟩ <;> simp [stepA, ha, hb, hl, hs]
    · right; right; right; right; right; left
      refine ⟨p, r, hpr, ?_⟩
      simp only [stepA, ha, hl]
      simp [ha, hb, hl, hs]
    · right; right; right; right; right; right; right; left
      refine ⟨[], bA, by simp, ?_⟩
      simp [stepA, ha, hb, hl, hs, applyAll]
    · cases r with
      | nil =>
        right; right; right; right; right; right; right; right
        have hba : bA = p := by simpa using hpr
        refine ⟨?_, ?_, ?_, ?_⟩ <;> simp [stepA, ha, hb, hs, hba]
      | cons f rest =>
        right; right; right; right; right; right; right; left
        refine ⟨p ++ [f], rest, by simp [hpr], ?_⟩
        simp [stepA, ha, hb, hl, hs, applyAll_snoc]
    · right; right; right; right; right; right; right; right
      refine ⟨?_, ?_, ?_, ?_⟩ <;> simp [stepA, ha, hb, hl, hs]
  | false =>
    show Inv bA bB s₀ (stepB bB c)
    rcases h with ⟨ha, hb, hl, hs⟩ | ⟨p, r, hpr, ha, hb, hl, hs⟩ |
      ⟨ha, hb, hl, hs⟩ | ⟨p, r, hpr, ha, hb, hl, hs⟩ | ⟨ha, hb, hl, hs⟩ |
      ⟨p, r, hpr, hb, ha, hl, hs⟩ | ⟨hb, ha, hl, hs⟩ |
      ⟨p, r, hpr, hb, ha, hl, hs⟩ | ⟨hb, ha, hl, hs⟩
    · right; right; right; right; right; left
      refine ⟨[], bB, by simp, ?_⟩
      simp [stepB, ha, hb, hl, hs, applyAll]
    · right; left
      refine ⟨p, r, hpr, ?_⟩
      simp [stepB, ha, hb, hl, hs]
    · right; right; right; left
      refine ⟨[], bB, by simp, ?_⟩
      simp [stepB, ha, hb, hl, hs, applyAll]
    · cases r with
      | nil =>
        right; right; right; right; left
        have hbb : bB = p := by simpa using hpr
        refine ⟨?_, ?_, ?_, ?_⟩ <;> simp [stepB, ha, hb, hs, hbb]
      | cons f rest =>
        right; right; right; left
        refine ⟨p ++ [f], rest, by simp [hpr], ?_⟩
        simp [stepB, ha, hb, hl, hs, applyAll_snoc]
    · right; right; right; right; left
      refine ⟨?_, ?_, ?_, ?_⟩ <;> simp [stepB, ha, hb, hl, hs]
    · cases r with
      | nil =>
        right; right; right; right; right; right; left
        have hbb : bB = p := by simpa using hpr
        refine ⟨?_, ?_, ?_, ?_⟩ <;> simp [stepB, ha, hb, hs, hbb]
      | cons f rest =>
        right; right; right; right; right; left
        refine ⟨p ++ [f], rest, by simp [hpr], ?_⟩
        simp [stepB, ha, hb, hl, hs, applyAll_snoc]
    · right; right; right; right; right; right; left
      refine ⟨?_, ?_, ?_, ?_⟩ <;> simp [stepB, ha, hb, hl, hs]
    · right; right; right; right; right; right; right; left
      refine ⟨p, r, hpr, ?_⟩
      simp [stepB, ha, hb, hl, hs]
    · right; right; right; right; right; right; right; right
      refine ⟨?_, ?_, ?_, ?_⟩ <;> simp [stepB, ha, hb, hl, hs]

theorem exec_preserves_Inv (bA bB : List (ObsState → ObsState))
    (s₀ : ObsState) (sched : List Bool) (c : Config) (h : Inv bA bB s₀ c) :
    Inv bA bB s₀ (exec bA bB c sched) := by
  induction sched generalizing c with
  | nil => exact h
  | cons t rest ih =>
    exact ih (step bA bB c t) (step_preserves_Inv bA bB s₀ c t h)

/-- Serializability of two lock-wrapped bodies: every complete
interleaving ends in one of the two serial executions. -/
theorem lock_serializes (bA bB : List (ObsState → ObsState)) (s₀ : ObsState)
    (sched : List Bool)
    (hA : (exec bA bB (initConfig s₀) sched).thA = .finished)
    (hB : (exec bA bB (initConfig s₀) sched).thB = .finished) :
    (exec bA bB (initConfig s₀) sched).s = applyAll bB (applyAll bA s₀)
    ∨ (exec bA bB (initConfig s₀) sched).s = applyAll bA (applyAll bB s₀) := by
  have h0 : Inv bA bB s₀ (initConfig s₀) := by
    left
    exact ⟨rfl, rfl, rfl, rfl⟩
  have h := exec_preserves_Inv bA bB s₀ sched (initConfig s₀) h0
  rcases h with ⟨ha, hb, hl, hs⟩ | ⟨p, r, hpr, ha, hb, hl, hs⟩ |
    ⟨ha, hb, hl, hs⟩ | ⟨p, r, hpr, ha, hb, hl, hs⟩ | ⟨ha, hb, hl, hs⟩ |
    ⟨p, r, hpr, hb, ha, hl, hs⟩ | ⟨hb, ha, hl, hs⟩ |
    ⟨p, r, hpr, hb, ha, hl, hs⟩ | ⟨hb, ha, hl, hs⟩
  · exact ThreadSt.noConfusion (hA.symm.trans ha)
  · exact ThreadSt.noConfusion (hA.symm.trans ha)
  · exact ThreadSt.noConfusion (hB.symm.trans hb)
  · exact ThreadSt.noConfusion (hB.symm.trans hb)
  · exact Or.inl hs
  · exact ThreadSt.noConfusion (hA.symm.trans ha)
  · exact ThreadSt.noConfusion (hA.symm.trans ha)
  · exact ThreadSt.noConfusion (hA.symm.trans ha)
  · exact Or.inr hs

theorem applyAll_upsertBody (it : Item) (now : ℕ) (s : ObsState) :
    applyAll (upsertBody it now) s =
      { s with db := upsert_item s.db it now } := by
  unfold applyAll upsertBody upsertStep1 upsertStep2 upsert_item histDelta
  cases h : price_for_hist it <;> simp [h]

theorem applyAll_readBody (key : String) (limit : ℕ) (s : ObsState) :
    applyAll (readBody key limit) s =
      { s with obs := s.obs ++ [get_price_history s.db key limit] } := rfl

/-- Claim C3: the single exclusive lock of `Store` makes the
read-check-write-append of an upsert atomic. First, two concurrent upserts
serialize: every complete interleaving leaves the store exactly as one of
the two serial orders, so no update is lost. Second, a concurrent history
reader observes either the store before the upsert or after it completed
— never the intermediate state between the `ads` write and the history
append. -/
theorem store_lock_atomicity (it₁ it₂ : Item) (n₁ n₂ : ℕ) (db₀ : DBState)
    (key : String) (lim : ℕ) :
    (∀ sched : List Bool,
      (exec (upsertBody it₁ n₁) (upsertBody it₂ n₂)
          (initConfig ⟨db₀, []⟩) sched).thA = .finished →
      (exec (upsertBody it₁ n₁) (upsertBody it₂ n₂)
          (initConfig ⟨db₀, []⟩) sched).thB = .finished →
      (exec (upsertBody it₁ n₁) (upsertBody it₂ n₂)
          (initConfig ⟨db₀, []⟩) sched).s.db =
          upsert_item (upsert_item db₀ it₁ n₁) it₂ n₂
      ∨ (exec (upsertBody it₁ n₁) (upsertBody it₂ n₂)
          (initConfig ⟨db₀, []⟩) sched).s.db =
          upsert_item (upsert_item db₀ it₂ n₂) it₁ n₁)
    ∧ (∀ sched : List Bool,
      (exec (upsertBody it₁ n₁) (readBody key lim)
          (initConfig ⟨db₀, []⟩) sched).thA = .finished →
      (exec (upsertBody it₁ n₁) (readBody key lim)
          (initConfig ⟨db₀, []⟩) sched).thB = .finished →
      (exec (upsertBody it₁ n₁) (readBody key lim)
          (initConfig ⟨db₀, []⟩) sched).s.obs =
          [get_price_history (upsert_item db₀ it₁ n₁) key lim]
      ∨ (exec (upsertBody it₁ n₁) (readBody key lim)
          (initConfig ⟨db₀, []⟩) sched).s.obs =
          [get_price_history db₀ key lim]) := by
  constructor
  · intro sched hA hB
    rcases lock_serializes (upsertBody it₁ n₁) (upsertBody it₂ n₂)
        ⟨db₀, []⟩ sched hA hB with h | h
    · left
      rw [h, applyAll_upsertBody, applyAll_upsertBody]
    · right
      rw [h, applyAll_upsertBody, applyAll_upsertBody]
  · intro sched hA hB
    rcases lock_serializes (upsertBody it₁ n₁) (readBody key lim)
        ⟨db₀, []⟩ sched hA hB with h | h
    · left
      rw [h, applyAll_upsertBody, applyAll_readBody]
      simp
    · right
      rw [h, applyAll_readBody, applyAll_upsertBody]
      simp

/-- Witness for C3: a concrete complete schedule of two upserts on the
same key (thread A runs to completion, then thread B) ends in one of the
two serial stores, exhibited by applying the atomicity theorem with both
finished-hypotheses discharged by computation. -/
theorem store_lock_atomicity_witness :
    (exec (upsertBody ⟨"K", "s", "t", "l", some 10, none, some 10, ""⟩ 1)
        (upsertBody ⟨"K", "s", "t", "l", some 8, none, some 8, ""⟩ 2)
        (initConfig ⟨⟨[], []⟩, []⟩)
        [true, true, true, true, false, false, false, false]).s.db =
      upsert_item
        (upsert_item ⟨[], []⟩ ⟨"K", "s", "t", "l", some 10, none, some 10, ""⟩ 1)
        ⟨"K", "s", "t", "l", some 8, none, some 8, ""⟩ 2
    ∨ (exec (upsertBody ⟨"K", "s", "t", "l", some 10, none, some 10, ""⟩ 1)
        (upsertBody ⟨"K", "s", "t", "l", some 8, none, some 8, ""⟩ 2)
        (initConfig ⟨⟨[], []⟩, []⟩)
        [true, true, true, true, false, false, false, false]).s.db =
      upsert_item
        (upsert_item ⟨[], []⟩ ⟨"K", "s", "t", "l", some 8, none, some 8, ""⟩ 2)
        ⟨"K", "s", "t", "l", some 10, none, some 10, ""⟩ 1 :=
  (store_lock_atomicity ⟨"K", "s", "t", "l", some 10, none, some 10, ""⟩
    ⟨"K", "s", "t", "l", some 8, none, some 8, ""⟩ 1 2 ⟨[], []⟩ "K" 32).1
    [true, true, true, true, false, false, false, false] rfl rfl

end Sniper
